import Mathlib

/-!
Verification development for the real-time chat fan-out core of the
`kprf42/dolgova` forum service.

The embedding follows the Go source:

* `entity.ChatMessage` / `entity.ChatMessageRequest` / `NewChatMessage`
  (forum_service/internal/entity, chat entity file): a chat message carries an
  id (a fresh UUID, modelled here as a natural number drawn from a fresh-name
  counter), the authenticated user id, the text, and a creation timestamp
  (`time.Now().UTC()`, modelled as a natural-number clock).
* `Client.readPump` (websocket client file): for every successfully decoded
  inbound frame it builds `NewChatMessage(&req, c.userID)` and submits it to
  the hub broadcast channel.  `readPumpRun` is that loop over a list of
  decoded frames, threading the fresh-id counter and the clock.
* `ChatRepository.GetMessages` (internal/repository/chat.go): the query
  `SELECT ... ORDER BY created_at DESC LIMIT ? OFFSET ?`.  The store is the
  list of persisted messages in insertion order (the hub is the only writer
  and serializes saves), so the query result is
  `(store.reverse.drop offset).take limit` — most recent first.
* `Hub.Run` (websocket hub file): the coordination loop over the three intake
  channels.  `hubStep` is one iteration of the `select`; `hubRun` folds it
  over a list of already-arrived events (the single total arrival order).
  A `none` result encodes a runtime fault of the Go code: a blocking send
  into a full or closed channel inside the loop, or `close` of an
  already-closed channel (both would hang or panic the coordination loop).
* `ServeWs` (websocket client file): a freshly upgraded client gets
  `send: make(chan *entity.ChatMessage, 256)` — `freshMailbox`.
-/

namespace DolgovaChat

/-- `entity.ChatMessage`: id (UUID modelled as a fresh natural), author user
id (string), text, creation timestamp (`time.Time` modelled as a natural). -/
structure ChatMessage where
  id : Nat
  userID : String
  text : String
  createdAt : Nat
deriving DecidableEq

/-- `entity.ChatMessageRequest`: the inbound frame payload.  It has a single
field `Text` — the frame carries no author field at all. -/
structure ChatMessageRequest where
  text : String
deriving DecidableEq

/-- `entity.NewChatMessage(req, userID)`: fresh id, the caller-supplied
authenticated user id, the request text, and the construction-time clock. -/
def newChatMessage (req : ChatMessageRequest) (userID : String)
    (freshId : Nat) (now : Nat) : ChatMessage :=
  { id := freshId, userID := userID, text := req.text, createdAt := now }

/-- `Client.readPump`: for each successfully decoded frame, construct
`NewChatMessage(&msgReq, c.userID)` and submit it to `hub.broadcast`.
The result is the list of messages submitted to the broadcast intake, in
order; `n0` is the fresh-id counter and `t0` the clock at the first frame. -/
def readPumpRun (userID : String) :
    List ChatMessageRequest → Nat → Nat → List ChatMessage
  | [], _, _ => []
  | req :: rest, n0, t0 =>
      newChatMessage req userID n0 t0 :: readPumpRun userID rest (n0 + 1) (t0 + 1)

/-- `ChatRepository.GetMessages(limit, offset)`:
`ORDER BY created_at DESC LIMIT limit OFFSET offset` over the store held in
insertion order — skip `offset` of the most recent, then up to `limit`
messages, most recent first. -/
def getMessages (store : List ChatMessage) (limit offset : Nat) : List ChatMessage :=
  (store.reverse.drop offset).take limit

/-- One client's outbound mailbox: the Go channel
`send chan *entity.ChatMessage` with its buffer contents (oldest first), its
capacity, and whether it has been closed. -/
structure Mailbox where
  msgs : List ChatMessage
  cap : Nat
  closed : Bool
deriving DecidableEq

/-- `ServeWs`: `send: make(chan *entity.ChatMessage, 256)` — a fresh, open,
empty mailbox of capacity 256. -/
def freshMailbox : Mailbox := { msgs := [], cap := 256, closed := false }

/-- The mailboxes of every client ever seen, keyed by client identity
(the Go `*Client` pointer, modelled as a natural number). -/
abbrev Boxes := List (Nat × Mailbox)

/-- Look a client's mailbox up by its identity. -/
def lookupBox : Boxes → Nat → Option Mailbox
  | [], _ => none
  | (k, v) :: rest, c => if k = c then some v else lookupBox rest c

/-- Replace a client's mailbox (the in-place mutation of the channel the
client owns).  Keys are unique: a fresh client is inserted at most once. -/
def setBox : Boxes → Nat → Mailbox → Boxes
  | [], _, _ => []
  | (k, v) :: rest, c, mb =>
      if k = c then (c, mb) :: rest else (k, v) :: setBox rest c mb

/-- The hub state: the membership set `h.clients` (a set of client
identities), every client's mailbox, and the persistent message store. -/
structure HubState where
  members : List Nat
  boxes : Boxes
  store : List ChatMessage
deriving DecidableEq

/-- `NewHub` with an arbitrary pre-existing store: no clients yet. -/
def initHub (store : List ChatMessage) : HubState :=
  { members := [], boxes := [], store := store }

/-- One arrival at the hub's coordination loop.  `register` carries the
client's own mailbox (built by `ServeWs`) and the environment's outcome of
the history fetch; `broadcast` carries the outcome of `SaveMessage`. -/
inductive Event where
  | register (c : Nat) (box : Mailbox) (fetchOk : Bool)
  | unregister (c : Nat)
  | broadcast (m : ChatMessage) (saveOk : Bool)
deriving DecidableEq

/-- The history-replay loop of the register branch:
`for _, msg := range messages { client.send <- msg }` — a blocking send per
message into client `c`'s mailbox.  `none` when a send would block forever
(mailbox full) or panic (mailbox closed). -/
def sendAll : Boxes → Nat → List ChatMessage → Option Boxes
  | bs, _, [] => some bs
  | bs, c, m :: rest =>
      match lookupBox bs c with
      | none => none
      | some mb =>
          if mb.closed then none
          else if mb.msgs.length < mb.cap then
            sendAll (setBox bs c { mb with msgs := mb.msgs ++ [m] }) c rest
          else none

/-- The fan-out loop of the broadcast branch, over a snapshot of the
membership set: `select { case client.send <- message: default:
close(client.send); delete(h.clients, client) }`.  A non-blocking enqueue
when there is room; otherwise the slow client is evicted — its mailbox is
closed and it is removed from membership in the same step.  `none` encodes
the Go panic of sending on (or closing) an already-closed channel, and the
impossible case of a member without a mailbox. -/
def fanout (m : ChatMessage) :
    List Nat → List Nat → Boxes → Option (List Nat × Boxes)
  | [], members, bs => some (members, bs)
  | c :: rest, members, bs =>
      match lookupBox bs c with
      | none => none
      | some mb =>
          if mb.closed then none
          else if mb.msgs.length < mb.cap then
            fanout m rest members (setBox bs c { mb with msgs := mb.msgs ++ [m] })
          else
            fanout m rest (members.erase c) (setBox bs c { mb with closed := true })

/-- One iteration of `Hub.Run`'s `select`:

* register: `h.clients[client] = true`, then
  `GetMessages(ctx, 100, 0)`; on fetch success every history message is sent
  (blocking) into the new client's mailbox; on fetch error registration
  stands and no history is sent.
* unregister: `if _, ok := h.clients[client]; ok { delete(...);
  close(client.send) }` — a no-op for a non-member.
* broadcast: `SaveMessage`; on error `continue` (no fan-out, store
  unchanged); on success append to the store and fan out to every member. -/
def hubStep (s : HubState) : Event → Option HubState
  | .register c box fetchOk =>
      let boxes1 := match lookupBox s.boxes c with
        | some _ => s.boxes
        | none => (c, box) :: s.boxes
      let members1 := if c ∈ s.members then s.members else c :: s.members
      if fetchOk then
        match sendAll boxes1 c (getMessages s.store 100 0) with
        | some boxes2 => some { members := members1, boxes := boxes2, store := s.store }
        | none => none
      else
        some { members := members1, boxes := boxes1, store := s.store }
  | .unregister c =>
      if c ∈ s.members then
        match lookupBox s.boxes c with
        | none => none
        | some mb =>
            if mb.closed then none
            else some { members := s.members.erase c,
                        boxes := setBox s.boxes c { mb with closed := true },
                        store := s.store }
      else some s
  | .broadcast m saveOk =>
      if saveOk then
        match fanout m s.members s.members s.boxes with
        | some (ms, bs) => some { members := ms, boxes := bs, store := s.store ++ [m] }
        | none => none
      else some s

/-- The coordination loop over a list of arrivals in their single total
arrival order. -/
def hubRun : HubState → List Event → Option HubState
  | s, [] => some s
  | s, e :: rest =>
      match hubStep s e with
      | some s' => hubRun s' rest
      | none => none

/-- Client `c`'s mailbox exists and is open. -/
def memberOpen (bs : Boxes) (c : Nat) : Bool :=
  match lookupBox bs c with
  | some mb => !mb.closed
  | none => false

/-- The hub's membership invariant: the member set has no duplicates (Go map
keys) and every member's mailbox exists and is open (closing always happens
together with removal from membership). -/
def Inv (s : HubState) : Prop :=
  s.members.Nodup ∧ ∀ c ∈ s.members, memberOpen s.boxes c = true

instance (s : HubState) : Decidable (Inv s) := by
  unfold Inv; infer_instance

/-- A register arrival is well-formed when its client is genuinely fresh
(a new `*Client` from `ServeWs`, never seen before) and its mailbox open:
this is what `ServeWs` guarantees for every registration. -/
def eventOK (s : HubState) : Event → Bool
  | .register c box _ => (lookupBox s.boxes c).isNone && !box.closed
  | _ => true

/-- Every register arrival along the trace is well-formed at the state it
meets. -/
def runOK : HubState → List Event → Bool
  | _, [] => true
  | s, e :: rest =>
      eventOK s e &&
        match hubStep s e with
        | some s' => runOK s' rest
        | none => true

/-- The messages whose broadcast step passed persistence, in arrival
order: the single global broadcast order. -/
def successBroadcasts : List Event → List ChatMessage
  | [] => []
  | .broadcast m true :: rest => m :: successBroadcasts rest
  | _ :: rest => successBroadcasts rest

/-- No register arrival for client `c` occurs in the trace. -/
def noRegisterOf (c : Nat) (evs : List Event) : Bool :=
  evs.all fun e => match e with
    | .register c' _ _ => !(c' == c)
    | _ => true

/-- `m1` is queued strictly before `m2` in mailbox contents `l`. -/
def beforeIn (l : List ChatMessage) (m1 m2 : ChatMessage) : Prop :=
  l.indexOf m1 < l.indexOf m2

instance (l : List ChatMessage) (m1 m2 : ChatMessage) :
    Decidable (beforeIn l m1 m2) := by
  unfold beforeIn; infer_instance

/-- Two mailboxes agree on the relative order of every pair of messages
delivered to both. -/
def pairOrderAgrees (l1 l2 : List ChatMessage) : Prop :=
  ∀ m1 m2, m1 ∈ l1 → m2 ∈ l1 → m1 ∈ l2 → m2 ∈ l2 →
    (beforeIn l1 m1 m2 ↔ beforeIn l2 m1 m2)

/- ### Concrete scenarios used to refute claims -/

/-- A hub with one registered client (identity 1) holding a fresh empty
mailbox, over an empty store. -/
def oneClientHub : HubState := ⟨[1], [(1, freshMailbox)], []⟩

/-- A concrete fully-formed chat message. -/
def msgA : ChatMessage := ⟨10, "u1", "hello", 5⟩

/-- A second, distinct concrete chat message. -/
def msgB : ChatMessage := ⟨11, "u2", "world", 6⟩

/-- Client 1 joins first, two messages are broadcast and persisted, then
client 2 joins and receives the history replay. -/
def historyTrace : List Event :=
  [.register 1 freshMailbox true, .broadcast msgA true, .broadcast msgB true,
   .register 2 freshMailbox true]

/-- The hub state `historyTrace` ends in: client 1's mailbox received the
broadcasts oldest first, while client 2's history replay was enqueued most
recent first (`ORDER BY created_at DESC`). -/
def historyTraceFinal : HubState :=
  ⟨[2, 1],
   [(2, ⟨[msgB, msgA], 256, false⟩), (1, ⟨[msgA, msgB], 256, false⟩)],
   [msgA, msgB]⟩

/- ### Helper lemmas about the mailbox table -/

theorem lookupBox_setBox_self {bs : Boxes} {c : Nat} {mb0 : Mailbox}
    (h : lookupBox bs c = some mb0) (mb : Mailbox) :
    lookupBox (setBox bs c mb) c = some mb := by
  induction bs with
  | nil => simp [lookupBox] at h
  | cons p rest ih =>
      obtain ⟨k, v⟩ := p
      by_cases hk : k = c
      · subst hk
        simp [lookupBox, setBox]
      · simp only [lookupBox, if_neg hk] at h
        simp [lookupBox, setBox, hk, ih h]

theorem lookupBox_setBox_ne {bs : Boxes} {c c' : Nat} (hne : c' ≠ c)
    (mb : Mailbox) : lookupBox (setBox bs c mb) c' = lookupBox bs c' := by
  induction bs with
  | nil => simp [lookupBox, setBox]
  | cons p rest ih =>
      obtain ⟨k, v⟩ := p
      by_cases hk : k = c
      · subst hk
        simp [lookupBox, setBox, if_neg (Ne.symm hne), ih]
      · simp [lookupBox, setBox, hk, ih]

theorem memberOpen_iff {bs : Boxes} {c : Nat} :
    memberOpen bs c = true ↔
      ∃ mb, lookupBox bs c = some mb ∧ mb.closed = false := by
  unfold memberOpen
  cases h : lookupBox bs c with
  | none => simp
  | some mb => simp [h, Bool.not_eq_true']

/- ### Helper lemmas about the history-replay loop -/

theorem sendAll_lookup_ne {c c' : Nat} (hne : c' ≠ c) :
    ∀ (msgs : List ChatMessage) (bs bs' : Boxes),
      sendAll bs c msgs = some bs' → lookupBox bs' c' = lookupBox bs c' := by
  intro msgs
  induction msgs with
  | nil => intro bs bs' h; cases h; rfl
  | cons m rest ih =>
      intro bs bs' h
      simp only [sendAll] at h
      cases hl : lookupBox bs c with
      | none => rw [hl] at h; cases h
      | some mb =>
          rw [hl] at h
          by_cases hc : mb.closed
          · simp [hc] at h
          · simp only [hc, if_false, Bool.false_eq_true] at h
            by_cases hlen : mb.msgs.length < mb.cap
            · rw [if_pos hlen] at h
              rw [ih _ _ h, lookupBox_setBox_ne hne]
            · rw [if_neg hlen] at h; cases h

theorem sendAll_fills {c : Nat} :
    ∀ (msgs : List ChatMessage) (bs : Boxes) (q : List ChatMessage) (cap : Nat),
      lookupBox bs c = some ⟨q, cap, false⟩ →
      q.length + msgs.length ≤ cap →
      ∃ bs', sendAll bs c msgs = some bs' ∧
        lookupBox bs' c = some ⟨q ++ msgs, cap, false⟩ := by
  intro msgs
  induction msgs with
  | nil =>
      intro bs q cap hl _
      exact ⟨bs, rfl, by simpa using hl⟩
  | cons m rest ih =>
      intro bs q cap hl hlen
      have hq : q.length < cap := by
        have := hlen; simp only [List.length_cons] at this; omega
      have hset : lookupBox (setBox bs c ⟨q ++ [m], cap, false⟩) c
          = some ⟨q ++ [m], cap, false⟩ := lookupBox_setBox_self hl _
      have hlen' : (q ++ [m]).length + rest.length ≤ cap := by
        simp only [List.length_append, List.length_singleton]
        simp only [List.length_cons] at hlen; omega
      obtain ⟨bs', hrun, hlook⟩ := ih _ _ _ hset hlen'
      refine ⟨bs', ?_, by simpa using hlook⟩
      simp only [sendAll, hl]
      simp [hq, hrun]

theorem sendAll_preserves_open {c : Nat} :
    ∀ (msgs : List ChatMessage) (bs bs' : Boxes),
      sendAll bs c msgs = some bs' →
      ∀ c', memberOpen bs c' = true → memberOpen bs' c' = true := by
  intro msgs
  induction msgs with
  | nil => intro bs bs' h; cases h; intro c' hc'; exact hc'
  | cons m rest ih =>
      intro bs bs' h c' hc'
      simp only [sendAll] at h
      cases hl : lookupBox bs c with
      | none => rw [hl] at h; cases h
      | some mb =>
          rw [hl] at h
          by_cases hcl : mb.closed
          · simp [hcl] at h
          · simp only [hcl, if_false, Bool.false_eq_true] at h
            by_cases hlen : mb.msgs.length < mb.cap
            · rw [if_pos hlen] at h
              refine ih _ _ h c' ?_
              by_cases hcc : c' = c
              · subst hcc
                rw [memberOpen_iff]
                exact ⟨_, lookupBox_setBox_self hl _, by simp [hcl]⟩
              · rw [memberOpen_iff] at hc' ⊢
                obtain ⟨mb', hmb', hop⟩ := hc'
                exact ⟨mb', by rw [lookupBox_setBox_ne hcc]; exact hmb', hop⟩
            · rw [if_neg hlen] at h; cases h

/- ### The fan-out loop specification -/

/-- What one broadcast fan-out pass does to every client: a member whose
mailbox has room gets the message appended and stays a member; a member
whose mailbox is full is evicted — mailbox closed (contents untouched) and
removed from membership; clients outside the processed list are untouched. -/
theorem fanout_spec (m : ChatMessage) :
    ∀ (l members : List Nat) (bs : Boxes),
      l.Nodup → members.Nodup →
      (∀ c ∈ l, memberOpen bs c = true) →
      ∃ ms' bs', fanout m l members bs = some (ms', bs') ∧
        ms'.Nodup ∧
        (∀ c ∈ l, ∀ mb, lookupBox bs c = some mb →
          if mb.msgs.length < mb.cap then
            lookupBox bs' c = some ⟨mb.msgs ++ [m], mb.cap, false⟩ ∧
              (c ∈ ms' ↔ c ∈ members)
          else
            lookupBox bs' c = some ⟨mb.msgs, mb.cap, true⟩ ∧ c ∉ ms') ∧
        (∀ c, c ∉ l → lookupBox bs' c = lookupBox bs c ∧ (c ∈ ms' ↔ c ∈ members)) := by
  intro l
  induction l with
  | nil =>
      intro members bs _ hmnd _
      exact ⟨members, bs, rfl, hmnd, by simp, fun c _ => ⟨rfl, Iff.rfl⟩⟩
  | cons c rest ih =>
      intro members bs hlnd hmnd hopen
      have hcrest : c ∉ rest := (List.nodup_cons.mp hlnd).1
      have hrestnd : rest.Nodup := (List.nodup_cons.mp hlnd).2
      obtain ⟨mb, hmb, hcl⟩ := memberOpen_iff.mp (hopen c (by simp))
      obtain ⟨q, cap, cl⟩ := mb
      simp only at hcl
      subst hcl
      by_cases hlt : q.length < cap
      · -- room in the head client's mailbox: non-blocking enqueue succeeds
        have hopen1 : ∀ c' ∈ rest, memberOpen (setBox bs c ⟨q ++ [m], cap, false⟩) c' = true := by
          intro c' hc'
          have hne : c' ≠ c := fun h => hcrest (h ▸ hc')
          rw [memberOpen_iff]
          obtain ⟨mb', hmb', hop⟩ := memberOpen_iff.mp (hopen c' (by simp [hc']))
          exact ⟨mb', by rw [lookupBox_setBox_ne hne]; exact hmb', hop⟩
        obtain ⟨ms', bs', hrun, hnd', hin, hout⟩ :=
          ih members (setBox bs c ⟨q ++ [m], cap, false⟩) hrestnd hmnd hopen1
        refine ⟨ms', bs', ?_, hnd', ?_, ?_⟩
        · simp only [fanout, hmb]
          simp [hlt, hrun]
        · intro c0 hc0 mb0 hmb0
          rcases List.mem_cons.mp hc0 with h0 | h0
          · subst h0
            rw [hmb] at hmb0
            cases hmb0
            simp only [hlt, if_true]
            have := hout c0 hcrest
            refine ⟨?_, this.2⟩
            rw [this.1, lookupBox_setBox_self hmb]
          · have hne : c0 ≠ c := fun h => hcrest (h ▸ h0)
            have hmb1 : lookupBox (setBox bs c ⟨q ++ [m], cap, false⟩) c0 = some mb0 := by
              rw [lookupBox_setBox_ne hne]; exact hmb0
            exact hin c0 h0 mb0 hmb1
        · intro c0 hc0
          have hne : c0 ≠ c := fun h => hc0 (by simp [h])
          have h0 : c0 ∉ rest := fun h => hc0 (by simp [h])
          have := hout c0 h0
          exact ⟨by rw [this.1, lookupBox_setBox_ne hne], this.2⟩
      · -- head client's mailbox is full: evict it in this same step
        have hopen1 : ∀ c' ∈ rest, memberOpen (setBox bs c ⟨q, cap, true⟩) c' = true := by
          intro c' hc'
          have hne : c' ≠ c := fun h => hcrest (h ▸ hc')
          rw [memberOpen_iff]
          obtain ⟨mb', hmb', hop⟩ := memberOpen_iff.mp (hopen c' (by simp [hc']))
          exact ⟨mb', by rw [lookupBox_setBox_ne hne]; exact hmb', hop⟩
        obtain ⟨ms', bs', hrun, hnd', hin, hout⟩ :=
          ih (members.erase c) (setBox bs c ⟨q, cap, true⟩) hrestnd (hmnd.erase c) hopen1
        refine ⟨ms', bs', ?_, hnd', ?_, ?_⟩
        · simp only [fanout, hmb]
          simp [hlt, hrun]
        · intro c0 hc0 mb0 hmb0
          rcases List.mem_cons.mp hc0 with h0 | h0
          · subst h0
            rw [hmb] at hmb0
            cases hmb0
            simp only [hlt, if_false]
            have := hout c0 hcrest
            refine ⟨by rw [this.1, lookupBox_setBox_self hmb], ?_⟩
            intro hmem
            exact hmnd.not_mem_erase (this.2.mp hmem)
          · have hne : c0 ≠ c := fun h => hcrest (h ▸ h0)
            have hmb1 : lookupBox (setBox bs c ⟨q, cap, true⟩) c0 = some mb0 := by
              rw [lookupBox_setBox_ne hne]; exact hmb0
            have := hin c0 h0 mb0 hmb1
            by_cases hl0 : mb0.msgs.length < mb0.cap
            · simp only [hl0, if_true] at this ⊢
              exact ⟨this.1, this.2.trans (List.mem_erase_of_ne hne)⟩
            · simp only [hl0, if_false] at this ⊢
              exact this
        · intro c0 hc0
          have hne : c0 ≠ c := fun h => hc0 (by simp [h])
          have h0 : c0 ∉ rest := fun h => hc0 (by simp [h])
          have := hout c0 h0
          exact ⟨by rw [this.1, lookupBox_setBox_ne hne],
                 this.2.trans (List.mem_erase_of_ne hne)⟩

/- ### Step-level specifications -/

/-- A successful-persistence broadcast step: the message is appended to the
store and fanned out to the membership snapshot, appending to every member
mailbox with room and evicting every full one. -/
theorem broadcast_spec {s : HubState} (m : ChatMessage) (hInv : Inv s) :
    ∃ s', hubStep s (.broadcast m true) = some s' ∧
      s'.store = s.store ++ [m] ∧ s'.members.Nodup ∧
      (∀ c ∈ s.members, ∀ mb, lookupBox s.boxes c = some mb →
        if mb.msgs.length < mb.cap then
          lookupBox s'.boxes c = some ⟨mb.msgs ++ [m], mb.cap, false⟩ ∧
            (c ∈ s'.members ↔ c ∈ s.members)
        else
          lookupBox s'.boxes c = some ⟨mb.msgs, mb.cap, true⟩ ∧ c ∉ s'.members) ∧
      (∀ c, c ∉ s.members →
        lookupBox s'.boxes c = lookupBox s.boxes c ∧
          (c ∈ s'.members ↔ c ∈ s.members)) := by
  obtain ⟨hnd, hopen⟩ := hInv
  obtain ⟨ms', bs', hrun, hnd', hin, hout⟩ :=
    fanout_spec m s.members s.members s.boxes hnd hnd hopen
  refine ⟨⟨ms', bs', s.store ++ [m]⟩, ?_, rfl, hnd', hin, hout⟩
  simp [hubStep, hrun]

/-- The membership invariant is preserved by every well-formed step. -/
theorem inv_step {s s' : HubState} {e : Event} :
    Inv s → eventOK s e = true → hubStep s e = some s' → Inv s' := by
  intro hInv hok hstep
  obtain ⟨hnd, hopen⟩ := hInv
  cases e with
  | register c box fetchOk =>
      simp only [eventOK, Bool.and_eq_true, Option.isNone_iff_eq_none,
        Bool.not_eq_true'] at hok
      obtain ⟨hnone, hboxopen⟩ := hok
      have hcnm : c ∉ s.members := by
        intro hc
        have := memberOpen_iff.mp (hopen c hc)
        rw [hnone] at this
        exact absurd this.choose_spec.1 (by simp)
      have hopen1 : ∀ c0 ∈ c :: s.members,
          memberOpen ((c, box) :: s.boxes) c0 = true := by
        intro c0 hc0
        rcases List.mem_cons.mp hc0 with h0 | h0
        · subst h0
          rw [memberOpen_iff]
          exact ⟨box, by simp [lookupBox], hboxopen⟩
        · have hne : c ≠ c0 := fun h => hcnm (h ▸ h0)
          rw [memberOpen_iff]
          obtain ⟨mb', hmb', hop⟩ := memberOpen_iff.mp (hopen c0 h0)
          exact ⟨mb', by simp [lookupBox, hne]; exact hmb', hop⟩
      simp only [hubStep, hnone, if_neg hcnm] at hstep
      cases fetchOk with
      | false =>
          simp only [Bool.false_eq_true, if_false, Option.some.injEq] at hstep
          subst hstep
          exact ⟨List.nodup_cons.mpr ⟨hcnm, hnd⟩, hopen1⟩
      | true =>
          simp only [if_true] at hstep
          cases hsend : sendAll ((c, box) :: s.boxes) c (getMessages s.store 100 0) with
          | none => rw [hsend] at hstep; cases hstep
          | some boxes2 =>
              rw [hsend] at hstep
              cases hstep
              refine ⟨List.nodup_cons.mpr ⟨hcnm, hnd⟩, ?_⟩
              intro c0 hc0
              exact sendAll_preserves_open _ _ _ hsend c0 (hopen1 c0 hc0)
  | unregister c =>
      by_cases hc : c ∈ s.members
      · obtain ⟨mb, hmb, hcl⟩ := memberOpen_iff.mp (hopen c hc)
        simp only [hubStep, if_pos hc, hmb, hcl, Bool.false_eq_true, if_false,
          Option.some.injEq] at hstep
        subst hstep
        refine ⟨hnd.erase c, ?_⟩
        intro c0 hc0
        have hne : c0 ≠ c := by
          intro h
          exact hnd.not_mem_erase (h ▸ hc0)
        have h0 : c0 ∈ s.members := List.erase_subset c s.members hc0
        rw [memberOpen_iff]
        obtain ⟨mb', hmb', hop⟩ := memberOpen_iff.mp (hopen c0 h0)
        exact ⟨mb', by rw [lookupBox_setBox_ne hne]; exact hmb', hop⟩
      · simp only [hubStep, if_neg hc, Option.some.injEq] at hstep
        subst hstep
        exact ⟨hnd, hopen⟩
  | broadcast m saveOk =>
      cases saveOk with
      | false =>
          simp only [hubStep, Bool.false_eq_true, if_false, Option.some.injEq] at hstep
          subst hstep
          exact ⟨hnd, hopen⟩
      | true =>
          obtain ⟨s2, hstep2, _, hnd2, hin, hout⟩ := broadcast_spec m ⟨hnd, hopen⟩
          rw [hstep2] at hstep
          cases hstep
          refine ⟨hnd2, ?_⟩
          intro c0 hc0
          by_cases h0 : c0 ∈ s.members
          · obtain ⟨mb, hmb, hcl⟩ := memberOpen_iff.mp (hopen c0 h0)
            have := hin c0 h0 mb hmb
            by_cases hl : mb.msgs.length < mb.cap
            · simp only [hl, if_true] at this
              rw [memberOpen_iff]
              exact ⟨_, this.1, rfl⟩
            · simp only [hl, if_false] at this
              exact absurd hc0 this.2
          · exact absurd ((hout c0 h0).2.mp hc0) h0

/-- The history fetch is bounded by its `limit` argument. -/
theorem getMessages_length_le (store : List ChatMessage) (limit offset : Nat) :
    (getMessages store limit offset).length ≤ limit :=
  List.length_take_le _ _

/-- Registering a genuinely fresh client (as `ServeWs` always produces)
succeeds without blocking regardless of the history-fetch outcome: the
client joins the membership set and its mailbox holds exactly the fetched
history (most recent first), or nothing when the fetch failed. -/
theorem register_fresh_spec {s : HubState} {c : Nat}
    (hnone : lookupBox s.boxes c = none) (fetchOk : Bool) :
    ∃ s', hubStep s (.register c freshMailbox fetchOk) = some s' ∧
      c ∈ s'.members ∧ s'.store = s.store ∧
      lookupBox s'.boxes c =
        some ⟨if fetchOk then getMessages s.store 100 0 else [], 256, false⟩ := by
  have hlook1 : lookupBox ((c, freshMailbox) :: s.boxes) c
      = some ⟨[], 256, false⟩ := by
    simp [lookupBox, freshMailbox]
  cases fetchOk with
  | false =>
      refine ⟨⟨if c ∈ s.members then s.members else c :: s.members,
               (c, freshMailbox) :: s.boxes, s.store⟩, ?_, ?_, rfl, ?_⟩
      · simp [hubStep, hnone]
      · by_cases hm : c ∈ s.members <;> simp [hm]
      · simpa using hlook1
  | true =>
      have hlen : ([] : List ChatMessage).length
          + (getMessages s.store 100 0).length ≤ 256 := by
        have := getMessages_length_le s.store 100 0
        simp only [List.length_nil, Nat.zero_add]
        omega
      obtain ⟨bs', hsend, hlook'⟩ :=
        sendAll_fills (getMessages s.store 100 0) _ _ _ hlook1 hlen
      refine ⟨⟨if c ∈ s.members then s.members else c :: s.members,
               bs', s.store⟩, ?_, ?_, rfl, ?_⟩
      · simp [hubStep, hnone, hsend]
      · by_cases hm : c ∈ s.members <;> simp [hm]
      · simpa using hlook'

/-- Effect of one well-formed step on the mailbox of a client `c` that the
step does not register: its queued contents are untouched, except that a
successfully persisted broadcast may append that one message. -/
theorem step_box_effect {s s' : HubState} {e : Event} {c : Nat} {mb : Mailbox}
    (hInv : Inv s) (hstep : hubStep s e = some s')
    (hmb : lookupBox s.boxes c = some mb)
    (hnreg : ∀ box ok, e ≠ .register c box ok) :
    ∃ mb', lookupBox s'.boxes c = some mb' ∧
      (mb'.msgs = mb.msgs ∨
        ∃ m, e = .broadcast m true ∧ mb'.msgs = mb.msgs ++ [m]) := by
  cases e with
  | register c1 box ok =>
      have hne : c ≠ c1 := by
        intro h
        exact hnreg box ok (by rw [h])
      simp only [hubStep] at hstep
      cases hl1 : lookupBox s.boxes c1 with
      | some mb1 =>
          rw [hl1] at hstep
          cases ok with
          | false =>
              simp only [Bool.false_eq_true, if_false, Option.some.injEq] at hstep
              subst hstep
              exact ⟨mb, hmb, Or.inl rfl⟩
          | true =>
              simp only [if_true] at hstep
              cases hsend : sendAll s.boxes c1 (getMessages s.store 100 0) with
              | none => rw [hsend] at hstep; cases hstep
              | some bs2 =>
                  rw [hsend] at hstep
                  cases hstep
                  refine ⟨mb, ?_, Or.inl rfl⟩
                  rw [sendAll_lookup_ne hne _ _ _ hsend]
                  exact hmb
      | none =>
          rw [hl1] at hstep
          have hl2 : lookupBox ((c1, box) :: s.boxes) c = some mb := by
            simp [lookupBox, Ne.symm hne, hmb]
          cases ok with
          | false =>
              simp only [Bool.false_eq_true, if_false, Option.some.injEq] at hstep
              subst hstep
              exact ⟨mb, hl2, Or.inl rfl⟩
          | true =>
              simp only [if_true] at hstep
              cases hsend : sendAll ((c1, box) :: s.boxes) c1 (getMessages s.store 100 0) with
              | none => rw [hsend] at hstep; cases hstep
              | some bs2 =>
                  rw [hsend] at hstep
                  cases hstep
                  refine ⟨mb, ?_, Or.inl rfl⟩
                  rw [sendAll_lookup_ne hne _ _ _ hsend]
                  exact hl2
  | unregister c1 =>
      by_cases hm : c1 ∈ s.members
      · obtain ⟨mb1, hmb1, hcl1⟩ := memberOpen_iff.mp (hInv.2 c1 hm)
        simp only [hubStep, if_pos hm, hmb1, hcl1, Bool.false_eq_true, if_false,
          Option.some.injEq] at hstep
        subst hstep
        by_cases hcc : c = c1
        · subst hcc
          rw [hmb1] at hmb
          cases hmb
          exact ⟨_, lookupBox_setBox_self hmb1 _, Or.inl rfl⟩
        · exact ⟨mb, by rw [lookupBox_setBox_ne hcc]; exact hmb, Or.inl rfl⟩
      · simp only [hubStep, if_neg hm, Option.some.injEq] at hstep
        subst hstep
        exact ⟨mb, hmb, Or.inl rfl⟩
  | broadcast m saveOk =>
      cases saveOk with
      | false =>
          simp only [hubStep, Bool.false_eq_true, if_false, Option.some.injEq] at hstep
          subst hstep
          exact ⟨mb, hmb, Or.inl rfl⟩
      | true =>
          obtain ⟨s2, hstep2, _, _, hin, hout⟩ := broadcast_spec m hInv
          rw [hstep2] at hstep
          cases hstep
          by_cases hm : c ∈ s.members
          · have := hin c hm mb hmb
            by_cases hl : mb.msgs.length < mb.cap
            · simp only [hl, if_true] at this
              exact ⟨_, this.1, Or.inr ⟨m, rfl, rfl⟩⟩
            · simp only [hl, if_false] at this
              exact ⟨_, this.1, Or.inl rfl⟩
          · exact ⟨mb, by rw [(hout c hm).1]; exact hmb, Or.inl rfl⟩

/-- Along any fault-free run whose trace never registers client `c`, the
contents of `c`'s mailbox only grow by a subsequence of the global
successful-broadcast order. -/
theorem run_box_sublist :
    ∀ (evs : List Event) (s s1 : HubState) (c : Nat) (mb : Mailbox),
      Inv s → runOK s evs = true → hubRun s evs = some s1 →
      lookupBox s.boxes c = some mb → noRegisterOf c evs = true →
      ∃ mb' l, lookupBox s1.boxes c = some mb' ∧
        mb'.msgs = mb.msgs ++ l ∧ l.Sublist (successBroadcasts evs) := by
  intro evs
  induction evs with
  | nil =>
      intro s s1 c mb _ _ hrun hmb _
      cases hrun
      exact ⟨mb, [], hmb, by simp, List.Sublist.refl _⟩
  | cons e rest ih =>
      intro s s1 c mb hInv hok hrun hmb hnreg
      simp only [runOK, Bool.and_eq_true] at hok
      obtain ⟨hok1, hok2⟩ := hok
      simp only [hubRun] at hrun
      cases hstep : hubStep s e with
      | none => rw [hstep] at hrun; cases hrun
      | some s2 =>
          rw [hstep] at hrun hok2
          have hInv2 : Inv s2 := inv_step hInv hok1 hstep
          have hnreg1 : ∀ box ok, e ≠ .register c box ok := by
            intro box ok he
            subst he
            simp only [noRegisterOf, List.all_cons, Bool.and_eq_true] at hnreg
            simpa using hnreg.1
          have hnreg2 : noRegisterOf c rest = true := by
            simp only [noRegisterOf, List.all_cons, Bool.and_eq_true] at hnreg
            exact hnreg.2
          obtain ⟨mb2, hmb2, heff⟩ := step_box_effect hInv hstep hmb hnreg1
          obtain ⟨mb', l, hmb', hl, hsub⟩ := ih s2 s1 c mb2 hInv2 hok2 hrun hmb2 hnreg2
          rcases heff with hsame | ⟨m, hem, happ⟩
          · refine ⟨mb', l, hmb', by rw [hl, hsame], ?_⟩
            refine hsub.trans ?_
            cases e with
            | broadcast m1 ok1 =>
                cases ok1 with
                | true => exact List.Sublist.cons m1 (List.Sublist.refl _)
                | false => simp [successBroadcasts]
            | register c1 b1 o1 => simp [successBroadcasts]
            | unregister c1 => simp [successBroadcasts]
          · subst hem
            refine ⟨mb', m :: l, hmb', by rw [hl, happ]; simp, ?_⟩
            simpa [successBroadcasts] using hsub.cons₂ m

/-- What the inbound loop submits: author is always the connection's
authenticated identity, texts are the decoded payload texts, ids and
timestamps are consecutive draws from the fresh-id counter and the clock. -/
theorem readPumpRun_spec (userID : String) :
    ∀ (frames : List ChatMessageRequest) (n0 t0 : Nat),
      (readPumpRun userID frames n0 t0).map ChatMessage.userID
          = frames.map (fun _ => userID) ∧
      (readPumpRun userID frames n0 t0).map ChatMessage.text
          = frames.map ChatMessageRequest.text ∧
      (readPumpRun userID frames n0 t0).map ChatMessage.id
          = List.range' n0 frames.length ∧
      (readPumpRun userID frames n0 t0).map ChatMessage.createdAt
          = List.range' t0 frames.length := by
  intro frames
  induction frames with
  | nil => intro n0 t0; simp [readPumpRun]
  | cons f rest ih =>
      intro n0 t0
      obtain ⟨h1, h2, h3, h4⟩ := ih (n0 + 1) (t0 + 1)
      refine ⟨?_, ?_, ?_, ?_⟩ <;>
        simp [readPumpRun, newChatMessage, h1, h2, h3, h4, List.range']

/- ### Claim theorems -/

/-- C1 counterexample: `Hub.Run` does `continue` when `SaveMessage` fails,
so delivery is NOT attempted "regardless of whether persistence reports
success or failure".  Concretely: client 1 is a member whose mailbox has
room, a broadcast arrives whose persistence fails, and afterwards the hub
state is unchanged — the member's mailbox is still empty, so no delivery
attempt reached it. -/
theorem broadcast_failed_persist_skips_fanout_cex :
    hubStep oneClientHub (.broadcast msgA false) = some oneClientHub ∧
    1 ∈ oneClientHub.members ∧
    lookupBox oneClientHub.boxes 1 = some freshMailbox ∧
    freshMailbox.msgs = [] ∧ freshMailbox.msgs.length < freshMailbox.cap := by
  refine ⟨?_, by decide, by decide, by decide, by decide⟩
  decide

/-- C1 (amended): for every broadcast step the Hub first runs persistence;
only when persistence reports success does it attempt delivery of the
message to every Connection in the membership set (appending it to every
member mailbox with room); when persistence fails the step changes nothing
and no delivery is attempted. -/
theorem broadcast_delivers_only_after_persist (s : HubState) (m : ChatMessage)
    (hInv : Inv s) :
    hubStep s (.broadcast m false) = some s ∧
    ∃ s', hubStep s (.broadcast m true) = some s' ∧
      s'.store = s.store ++ [m] ∧
      ∀ c ∈ s.members, ∀ mb, lookupBox s.boxes c = some mb →
        mb.msgs.length < mb.cap →
        lookupBox s'.boxes c = some ⟨mb.msgs ++ [m], mb.cap, false⟩ := by
  refine ⟨by simp [hubStep], ?_⟩
  obtain ⟨s', h1, h2, _, hin, _⟩ := broadcast_spec m hInv
  refine ⟨s', h1, h2, ?_⟩
  intro c hc mb hmb hl
  have := hin c hc mb hmb
  simp only [hl, if_true] at this
  exact this.1

theorem broadcast_delivers_only_after_persist_witness :
    Inv oneClientHub ∧
    (hubStep oneClientHub (.broadcast msgA false) = some oneClientHub ∧
     ∃ s', hubStep oneClientHub (.broadcast msgA true) = some s' ∧
       s'.store = oneClientHub.store ++ [msgA] ∧
       ∀ c ∈ oneClientHub.members, ∀ mb, lookupBox oneClientHub.boxes c = some mb →
         mb.msgs.length < mb.cap →
         lookupBox s'.boxes c = some ⟨mb.msgs ++ [msgA], mb.cap, false⟩) :=
  ⟨by decide, broadcast_delivers_only_after_persist oneClientHub msgA (by decide)⟩

/-- C2: a broadcast whose persistence fails leaves the hub state —
membership, every mailbox, and the store — exactly unchanged, so no
mailbox receives the message; a broadcast whose persistence succeeds is
appended to the store and enqueued onto the mailbox of every member at
fan-out time, except the full-mailbox members, which are evicted (mailbox
closed, contents untouched, removed from membership) in that same step. -/
theorem broadcast_persistence_gate (s : HubState) (m : ChatMessage)
    (hInv : Inv s) :
    hubStep s (.broadcast m false) = some s ∧
    ∃ s', hubStep s (.broadcast m true) = some s' ∧
      s'.store = s.store ++ [m] ∧
      ∀ c ∈ s.members, ∀ mb, lookupBox s.boxes c = some mb →
        if mb.msgs.length < mb.cap then
          lookupBox s'.boxes c = some ⟨mb.msgs ++ [m], mb.cap, false⟩ ∧
            c ∈ s'.members
        else
          lookupBox s'.boxes c = some ⟨mb.msgs, mb.cap, true⟩ ∧
            c ∉ s'.members := by
  refine ⟨by simp [hubStep], ?_⟩
  obtain ⟨s', h1, h2, _, hin, _⟩ := broadcast_spec m hInv
  refine ⟨s', h1, h2, ?_⟩
  intro c hc mb hmb
  have := hin c hc mb hmb
  by_cases hl : mb.msgs.length < mb.cap
  · simp only [hl, if_true] at this ⊢
    exact ⟨this.1, this.2.mpr hc⟩
  · simp only [hl, if_false] at this ⊢
    exact this

theorem broadcast_persistence_gate_witness :
    Inv oneClientHub ∧
    (hubStep oneClientHub (.broadcast msgB false) = some oneClientHub ∧
     ∃ s', hubStep oneClientHub (.broadcast msgB true) = some s' ∧
       s'.store = oneClientHub.store ++ [msgB] ∧
       ∀ c ∈ oneClientHub.members, ∀ mb, lookupBox oneClientHub.boxes c = some mb →
         if mb.msgs.length < mb.cap then
           lookupBox s'.boxes c = some ⟨mb.msgs ++ [msgB], mb.cap, false⟩ ∧
             c ∈ s'.members
         else
           lookupBox s'.boxes c = some ⟨mb.msgs, mb.cap, true⟩ ∧
             c ∉ s'.members) :=
  ⟨by decide, broadcast_persistence_gate oneClientHub msgB (by decide)⟩

/-- C3: inside a broadcast step, delivery is a non-blocking enqueue; a
member whose mailbox is full is removed from membership and its mailbox
closed within that same step, its queued contents untouched; it receives
no message from this or any later broadcast, and later broadcast steps
complete without blocking on it. -/
theorem full_mailbox_eviction (s : HubState) (c : Nat) (mb : Mailbox)
    (m : ChatMessage) (hInv : Inv s) (hc : c ∈ s.members)
    (hmb : lookupBox s.boxes c = some mb)
    (hfull : ¬ mb.msgs.length < mb.cap) :
    ∃ s', hubStep s (.broadcast m true) = some s' ∧
      c ∉ s'.members ∧
      lookupBox s'.boxes c = some ⟨mb.msgs, mb.cap, true⟩ ∧
      ∀ m', ∃ s'', hubStep s' (.broadcast m' true) = some s'' ∧
        lookupBox s''.boxes c = some ⟨mb.msgs, mb.cap, true⟩ ∧
        c ∉ s''.members := by
  obtain ⟨s', h1, _, _, hin, _⟩ := broadcast_spec m hInv
  have hcfull := hin c hc mb hmb
  simp only [hfull, if_false] at hcfull
  obtain ⟨hlook', hnm'⟩ := hcfull
  have hInv' : Inv s' := inv_step hInv (by simp [eventOK]) h1
  refine ⟨s', h1, hnm', hlook', ?_⟩
  intro m'
  obtain ⟨s'', h2, _, _, _, hout⟩ := broadcast_spec m' hInv'
  have := hout c hnm'
  exact ⟨s'', h2, by rw [this.1]; exact hlook', fun h => hnm' (this.2.mp h)⟩

theorem full_mailbox_eviction_witness :
    Inv (⟨[1], [(1, ⟨[msgA], 1, false⟩)], []⟩ : HubState) ∧
    1 ∈ (⟨[1], [(1, ⟨[msgA], 1, false⟩)], []⟩ : HubState).members ∧
    lookupBox (⟨[1], [(1, ⟨[msgA], 1, false⟩)], []⟩ : HubState).boxes 1 =
      some ⟨[msgA], 1, false⟩ ∧
    ¬ ([msgA] : List ChatMessage).length < 1 ∧
    (∃ s', hubStep (⟨[1], [(1, ⟨[msgA], 1, false⟩)], []⟩ : HubState)
        (.broadcast msgB true) = some s' ∧
      1 ∉ s'.members ∧
      lookupBox s'.boxes 1 = some ⟨[msgA], 1, true⟩ ∧
      ∀ m', ∃ s'', hubStep s' (.broadcast m' true) = some s'' ∧
        lookupBox s''.boxes 1 = some ⟨[msgA], 1, true⟩ ∧
        1 ∉ s''.members) :=
  ⟨by decide, by decide, by decide, by decide,
   full_mailbox_eviction ⟨[1], [(1, ⟨[msgA], 1, false⟩)], []⟩ 1
     ⟨[msgA], 1, false⟩ msgB (by decide) (by decide) (by decide) (by decide)⟩

/-- C6: unregistering a Connection that is not a member leaves the hub
state exactly unchanged with no fault; unregistering a member removes it
and closes its mailbox in the same step, after which a second unregister
of the same Connection is a no-op. -/
theorem unregister_idempotent_noop (s : HubState) (c : Nat) (hInv : Inv s) :
    (c ∉ s.members → hubStep s (.unregister c) = some s) ∧
    (c ∈ s.members → ∃ s' mb, lookupBox s.boxes c = some mb ∧
      hubStep s (.unregister c) = some s' ∧
      s'.members = s.members.erase c ∧ c ∉ s'.members ∧
      lookupBox s'.boxes c = some ⟨mb.msgs, mb.cap, true⟩ ∧
      hubStep s' (.unregister c) = some s') := by
  constructor
  · intro hc
    simp [hubStep, hc]
  · intro hc
    obtain ⟨mb, hmb, hcl⟩ := memberOpen_iff.mp (hInv.2 c hc)
    have hnotmem : c ∉ s.members.erase c := hInv.1.not_mem_erase
    refine ⟨⟨s.members.erase c, setBox s.boxes c ⟨mb.msgs, mb.cap, true⟩,
             s.store⟩, mb, hmb, ?_, rfl, hnotmem, ?_, ?_⟩
    · have : ({ mb with closed := true } : Mailbox)
          = ⟨mb.msgs, mb.cap, true⟩ := rfl
      simp [hubStep, hc, hmb, hcl, this]
    · exact lookupBox_setBox_self hmb _
    · simp [hubStep, hnotmem]

theorem unregister_idempotent_noop_witness :
    Inv oneClientHub ∧
    ((2 ∉ oneClientHub.members → hubStep oneClientHub (.unregister 2) = some oneClientHub) ∧
     (2 ∈ oneClientHub.members → ∃ s' mb, lookupBox oneClientHub.boxes 2 = some mb ∧
       hubStep oneClientHub (.unregister 2) = some s' ∧
       s'.members = oneClientHub.members.erase 2 ∧ 2 ∉ s'.members ∧
       lookupBox s'.boxes 2 = some ⟨mb.msgs, mb.cap, true⟩ ∧
       hubStep s' (.unregister 2) = some s')) :=
  ⟨by decide, unregister_idempotent_noop oneClientHub 2 (by decide)⟩

/-- C9: a mailbox is closed at most once.  Once a Connection's mailbox is
closed it is no longer a member (both close sites remove it in the same
step), so a later unregister event for it is a strict no-op — the channel
is never closed a second time — and broadcasts never touch its mailbox
again. -/
theorem mailbox_closed_at_most_once (s : HubState) (c : Nat) (mb : Mailbox)
    (hInv : Inv s) (hmb : lookupBox s.boxes c = some mb)
    (hcl : mb.closed = true) :
    c ∉ s.members ∧
    hubStep s (.unregister c) = some s ∧
    ∀ m, ∃ s', hubStep s (.broadcast m true) = some s' ∧
      lookupBox s'.boxes c = some mb ∧ c ∉ s'.members := by
  have hnm : c ∉ s.members := by
    intro hc
    obtain ⟨mb', hmb', hop⟩ := memberOpen_iff.mp (hInv.2 c hc)
    rw [hmb] at hmb'
    cases hmb'
    rw [hcl] at hop
    cases hop
  refine ⟨hnm, by simp [hubStep, hnm], ?_⟩
  intro m
  obtain ⟨s', h1, _, _, _, hout⟩ := broadcast_spec m hInv
  have := hout c hnm
  exact ⟨s', h1, by rw [this.1]; exact hmb, fun h => hnm (this.2.mp h)⟩

theorem mailbox_closed_at_most_once_witness :
    Inv (⟨[], [(1, ⟨[], 256, true⟩)], []⟩ : HubState) ∧
    lookupBox (⟨[], [(1, ⟨[], 256, true⟩)], []⟩ : HubState).boxes 1 =
      some ⟨[], 256, true⟩ ∧
    (1 ∉ (⟨[], [(1, ⟨[], 256, true⟩)], []⟩ : HubState).members ∧
     hubStep (⟨[], [(1, ⟨[], 256, true⟩)], []⟩ : HubState) (.unregister 1) =
       some ⟨[], [(1, ⟨[], 256, true⟩)], []⟩ ∧
     ∀ m, ∃ s', hubStep (⟨[], [(1, ⟨[], 256, true⟩)], []⟩ : HubState)
         (.broadcast m true) = some s' ∧
       lookupBox s'.boxes 1 = some ⟨[], 256, true⟩ ∧ 1 ∉ s'.members) :=
  ⟨by decide, by decide,
   mailbox_closed_at_most_once ⟨[], [(1, ⟨[], 256, true⟩)], []⟩ 1
     ⟨[], 256, true⟩ (by decide) (by decide) (by decide)⟩

/-- C10: registering a genuinely fresh Connection (mailbox freshly created
by `ServeWs` with capacity 256, empty) never blocks the coordination loop:
the history fetch is bounded by limit 100, so every blocking history send
into the new mailbox succeeds immediately and the mailbox never fills. -/
theorem register_history_never_blocks (s : HubState) (c : Nat)
    (fetchOk : Bool) (hfresh : lookupBox s.boxes c = none) :
    ∃ s', hubStep s (.register c freshMailbox fetchOk) = some s' ∧
      c ∈ s'.members ∧
      ∃ mb, lookupBox s'.boxes c = some mb ∧ mb.cap = 256 ∧
        mb.closed = false ∧ mb.msgs.length ≤ 100 ∧
        mb.msgs.length < mb.cap := by
  obtain ⟨s', h1, h2, _, h4⟩ := register_fresh_spec hfresh fetchOk
  have hlen : (if fetchOk = true then getMessages s.store 100 0
      else []).length ≤ 100 := by
    cases fetchOk with
    | true => simpa using getMessages_length_le s.store 100 0
    | false => simp
  refine ⟨s', h1, h2, _, h4, rfl, rfl, hlen, ?_⟩
  show (if fetchOk = true then getMessages s.store 100 0 else []).length < 256
  omega

theorem register_history_never_blocks_witness :
    lookupBox oneClientHub.boxes 2 = none ∧
    (∃ s', hubStep oneClientHub (.register 2 freshMailbox true) = some s' ∧
      2 ∈ s'.members ∧
      ∃ mb, lookupBox s'.boxes 2 = some mb ∧ mb.cap = 256 ∧
        mb.closed = false ∧ mb.msgs.length ≤ 100 ∧
        mb.msgs.length < mb.cap) :=
  ⟨by decide, register_history_never_blocks oneClientHub 2 true (by decide)⟩

/-- C4 counterexample: the claim's conclusion — every pair of messages
delivered to two different Connections' mailboxes appears in the same
relative order in both — fails on the code, because history replay at
registration is enqueued most recent first (`ORDER BY created_at DESC`)
while broadcast fan-out delivers oldest first.  Concretely, after
`historyTrace` client 1 holds `[msgA, msgB]` and client 2 holds
`[msgB, msgA]`: the pair appears in opposite orders. -/
theorem broadcast_vs_history_order_cex :
    hubRun (initHub []) historyTrace = some historyTraceFinal ∧
    lookupBox historyTraceFinal.boxes 1 = some ⟨[msgA, msgB], 256, false⟩ ∧
    lookupBox historyTraceFinal.boxes 2 = some ⟨[msgB, msgA], 256, false⟩ ∧
    ¬ pairOrderAgrees [msgA, msgB] [msgB, msgA] := by
  refine ⟨by decide, by decide, by decide, ?_⟩
  intro h
  have h1 := (h msgA msgB (by decide) (by decide) (by decide) (by decide)).mp
    (by decide)
  exact absurd h1 (by decide)

/-- C4 (amended): the coordination loop processes all events in one total
order; every Connection that is not (re)registered during the trace
receives broadcast messages as a subsequence of the single global
successful-broadcast order — so any two such Connections observe their
commonly delivered broadcasts in the same relative order.  History-replay
deliveries at registration are exempt: they are enqueued most recent
first and may appear in the opposite relative order. -/
theorem hub_total_order_of_broadcasts (evs : List Event) (s s1 : HubState)
    (a b : Nat) (mba mbb : Mailbox)
    (hInv : Inv s) (hok : runOK s evs = true)
    (hrun : hubRun s evs = some s1)
    (hma : lookupBox s.boxes a = some mba)
    (hmb : lookupBox s.boxes b = some mbb)
    (hna : noRegisterOf a evs = true) (hnb : noRegisterOf b evs = true) :
    ∃ mba' mbb' la lb,
      lookupBox s1.boxes a = some mba' ∧ lookupBox s1.boxes b = some mbb' ∧
      mba'.msgs = mba.msgs ++ la ∧ mbb'.msgs = mbb.msgs ++ lb ∧
      la.Sublist (successBroadcasts evs) ∧
      lb.Sublist (successBroadcasts evs) := by
  obtain ⟨mba', la, h1, h2, h3⟩ :=
    run_box_sublist evs s s1 a mba hInv hok hrun hma hna
  obtain ⟨mbb', lb, h4, h5, h6⟩ :=
    run_box_sublist evs s s1 b mbb hInv hok hrun hmb hnb
  exact ⟨mba', mbb', la, lb, h1, h4, h2, h5, h3, h6⟩

theorem hub_total_order_of_broadcasts_witness :
    Inv (⟨[1, 2], [(1, freshMailbox), (2, freshMailbox)], []⟩ : HubState) ∧
    runOK ⟨[1, 2], [(1, freshMailbox), (2, freshMailbox)], []⟩
      [.broadcast msgA true, .broadcast msgB true] = true ∧
    hubRun ⟨[1, 2], [(1, freshMailbox), (2, freshMailbox)], []⟩
      [.broadcast msgA true, .broadcast msgB true] =
        some ⟨[1, 2],
              [(1, ⟨[msgA, msgB], 256, false⟩), (2, ⟨[msgA, msgB], 256, false⟩)],
              [msgA, msgB]⟩ ∧
    lookupBox [(1, freshMailbox), (2, freshMailbox)] 1 = some freshMailbox ∧
    lookupBox [(1, freshMailbox), (2, freshMailbox)] 2 = some freshMailbox ∧
    noRegisterOf 1 [.broadcast msgA true, .broadcast msgB true] = true ∧
    noRegisterOf 2 [.broadcast msgA true, .broadcast msgB true] = true ∧
    (∃ mba' mbb' la lb,
      lookupBox (⟨[1, 2],
        [(1, ⟨[msgA, msgB], 256, false⟩), (2, ⟨[msgA, msgB], 256, false⟩)],
        [msgA, msgB]⟩ : HubState).boxes 1 = some mba' ∧
      lookupBox (⟨[1, 2],
        [(1, ⟨[msgA, msgB], 256, false⟩), (2, ⟨[msgA, msgB], 256, false⟩)],
        [msgA, msgB]⟩ : HubState).boxes 2 = some mbb' ∧
      mba'.msgs = freshMailbox.msgs ++ la ∧
      mbb'.msgs = freshMailbox.msgs ++ lb ∧
      la.Sublist (successBroadcasts [.broadcast msgA true, .broadcast msgB true]) ∧
      lb.Sublist (successBroadcasts [.broadcast msgA true, .broadcast msgB true])) :=
  ⟨by decide, by decide, by decide, by decide, by decide, by decide, by decide,
   hub_total_order_of_broadcasts
     [.broadcast msgA true, .broadcast msgB true]
     ⟨[1, 2], [(1, freshMailbox), (2, freshMailbox)], []⟩
     ⟨[1, 2],
      [(1, ⟨[msgA, msgB], 256, false⟩), (2, ⟨[msgA, msgB], 256, false⟩)],
      [msgA, msgB]⟩
     1 2 freshMailbox freshMailbox
     (by decide) (by decide) (by decide) (by decide) (by decide)
     (by decide) (by decide)⟩

/-- C5: registering a fresh Connection adds it to membership and enqueues
the most recent (up to 100) persisted messages onto its mailbox in the
`GetMessages` recency order (most recent first, the `ORDER BY created_at
DESC LIMIT 100 OFFSET 0` result), all of it ahead of any message broadcast
afterwards; when the history fetch fails, registration still succeeds and
the Connection simply starts with an empty backlog. -/
theorem register_replays_recent_history (s : HubState) (c : Nat)
    (hInv : Inv s) (hfresh : lookupBox s.boxes c = none) :
    (∃ s', hubStep s (.register c freshMailbox true) = some s' ∧
      c ∈ s'.members ∧
      lookupBox s'.boxes c = some ⟨getMessages s.store 100 0, 256, false⟩ ∧
      (getMessages s.store 100 0).length ≤ 100 ∧
      getMessages s.store 100 0 = s.store.reverse.take 100 ∧
      ∀ m, ∃ s'', hubStep s' (.broadcast m true) = some s'' ∧
        lookupBox s''.boxes c =
          some ⟨getMessages s.store 100 0 ++ [m], 256, false⟩) ∧
    (∃ s', hubStep s (.register c freshMailbox false) = some s' ∧
      c ∈ s'.members ∧ lookupBox s'.boxes c = some ⟨[], 256, false⟩) := by
  constructor
  · obtain ⟨s', h1, hcm, hstore, hlook⟩ := register_fresh_spec hfresh true
    simp only [if_true] at hlook
    have hInv' : Inv s' :=
      inv_step hInv (by simp [eventOK, hfresh, freshMailbox]) h1
    refine ⟨s', h1, hcm, hlook, getMessages_length_le s.store 100 0,
      by simp [getMessages], ?_⟩
    intro m
    obtain ⟨s'', h2, _, _, hin, _⟩ := broadcast_spec m hInv'
    have hx := hin c hcm _ hlook
    have hlen : (getMessages s.store 100 0).length < 256 := by
      have := getMessages_length_le s.store 100 0
      omega
    simp only [hlen, if_true] at hx
    exact ⟨s'', h2, hx.1⟩
  · obtain ⟨s', h1, hcm, _, hlook⟩ := register_fresh_spec hfresh false
    simp only [Bool.false_eq_true, if_false] at hlook
    exact ⟨s', h1, hcm, hlook⟩

theorem register_replays_recent_history_witness :
    Inv oneClientHub ∧ lookupBox oneClientHub.boxes 2 = none ∧
    ((∃ s', hubStep oneClientHub (.register 2 freshMailbox true) = some s' ∧
      2 ∈ s'.members ∧
      lookupBox s'.boxes 2 =
        some ⟨getMessages oneClientHub.store 100 0, 256, false⟩ ∧
      (getMessages oneClientHub.store 100 0).length ≤ 100 ∧
      getMessages oneClientHub.store 100 0 =
        oneClientHub.store.reverse.take 100 ∧
      ∀ m, ∃ s'', hubStep s' (.broadcast m true) = some s'' ∧
        lookupBox s''.boxes 2 =
          some ⟨getMessages oneClientHub.store 100 0 ++ [m], 256, false⟩) ∧
    (∃ s', hubStep oneClientHub (.register 2 freshMailbox false) = some s' ∧
      2 ∈ s'.members ∧ lookupBox s'.boxes 2 = some ⟨[], 256, false⟩)) :=
  ⟨by decide, by decide,
   register_replays_recent_history oneClientHub 2 (by decide) (by decide)⟩

/-- C7: the claim — every ChatMessage reaching broadcast has text of 1 to
1000 characters, validated beforehand — is contradicted by the code: the
inbound loop decodes the frame and calls `NewChatMessage` directly, never
invoking any validator, although the entity declares
`validate:"required,min=1,max=1000"` on the text field.  A decoded frame
with empty text yields a zero-length-text message submitted to the
broadcast intake. -/
theorem empty_text_reaches_broadcast :
    readPumpRun "u1" [⟨""⟩] 0 0 = [⟨0, "u1", "", 0⟩] ∧
    (⟨0, "u1", "", 0⟩ : ChatMessage).text.length = 0 :=
  ⟨rfl, rfl⟩

/-- C8: every message the inbound loop submits to broadcast carries the
Connection's authenticated identity as author (the decoded frame has no
author field to take it from), the decoded payload text, a freshly drawn
id — pairwise distinct across the loop — and the construction-time
clock value as its timestamp. -/
theorem readpump_authentic_construction (userID : String)
    (frames : List ChatMessageRequest) (n0 t0 : Nat) :
    (readPumpRun userID frames n0 t0).map ChatMessage.userID
        = frames.map (fun _ => userID) ∧
    (readPumpRun userID frames n0 t0).map ChatMessage.text
        = frames.map ChatMessageRequest.text ∧
    (readPumpRun userID frames n0 t0).map ChatMessage.id
        = List.range' n0 frames.length ∧
    ((readPumpRun userID frames n0 t0).map ChatMessage.id).Nodup ∧
    (readPumpRun userID frames n0 t0).map ChatMessage.createdAt
        = List.range' t0 frames.length := by
  obtain ⟨h1, h2, h3, h4⟩ := readPumpRun_spec userID frames n0 t0
  refine ⟨h1, h2, h3, ?_, h4⟩
  rw [h3]
  exact List.nodup_range' n0 frames.length 1 Nat.one_pos

end DolgovaChat
